import Mathlib

/-!
Verification development for the mini-lsm storage engine.

Keys and values are byte sequences, modelled as `List Nat` with entries below
256. Machine integers (`u16`, `u32`, `usize`) are modelled as `Nat`, with an
explicit `% 2^16` (resp. `% 2^32`) wherever the source truncates (`as u16`,
`to_le_bytes`). Fallible operations return `Option`; a `none` result models a
Rust panic (`unwrap`, `assert!`, `unreachable!`) or a returned error.
Iterators are modelled extensionally: an iterator value is represented by the
list of entries it will yield. Recursions that are not structural in the
source (binary search, k-way merge, WAL decoding) take an explicit fuel
argument; all call sites pass fuel sufficient for complete evaluation.
-/

/-- Byte strings (keys, values, encoded buffers). -/
abbrev Bytes := List Nat

/-- Lexicographic strict order on byte strings, as Rust compares `&[u8]`. -/
def bytesLt : Bytes → Bytes → Bool
  | [], [] => false
  | [], _ :: _ => true
  | _ :: _, [] => false
  | a :: as, b :: bs => a < b || (a == b && bytesLt as bs)

/-- Lexicographic `≤` on byte strings: `a <= b` for Rust byte slices. -/
def bytesLe (a b : Bytes) : Bool := bytesLt a b || a == b

/-- Little-endian two-byte encoding of a `u16` value, as `u16::to_le_bytes`;
writing a `Nat` through this function truncates it modulo `2^16` exactly as
an `as u16` cast does. -/
def le16 (n : Nat) : List Nat := [n % 256, n / 256 % 256]

/-- Little-endian four-byte encoding of a `u32` value, as `u32::to_le_bytes`. -/
def le32 (n : Nat) : List Nat :=
  [n % 256, n / 256 % 256, n / 65536 % 256, n / 16777216 % 256]

/-- Decoding of two little-endian bytes into a `u16` value (`get_u16_le`). -/
def readU16le (b0 b1 : Nat) : Nat := b0 + 256 * b1

/-- Decoding of four little-endian bytes into a `u32` value (`get_u32_le`). -/
def readU32le (b0 b1 b2 b3 : Nat) : Nat :=
  b0 + 256 * b1 + 65536 * b2 + 16777216 * b3

/-- A block: sorted key-value entries serialized in `data`, with the starting
offset of each entry in `offsets` (source: `src/block.rs`, `struct Block`). -/
structure Block where
  data : List Nat
  offsets : List Nat
deriving DecidableEq

/-- `Block::encode` (src/block.rs): entry data, then each offset as `u16`
little-endian, then the element count as `u16` little-endian. -/
def Block.encode (b : Block) : List Nat :=
  b.data ++ b.offsets.flatMap le16 ++ le16 b.offsets.length

/-- Decode consecutive little-endian `u16` values, as the offset-reading loop
of `Block::decode` does over the offset section. -/
def decodeU16s : List Nat → List Nat
  | b0 :: b1 :: rest => readU16le b0 b1 :: decodeU16s rest
  | _ => []

/-- `Block::decode` (src/block.rs): read the trailing `u16` element count,
compute where the offset section begins, then split the buffer into entry
data and decoded offsets. -/
def Block.decode (buf : List Nat) : Block :=
  let numOfElements := readU16le (buf.getD (buf.length - 2) 0) (buf.getD (buf.length - 1) 0)
  let offsetBegin := buf.length - 2 - 2 * numOfElements
  { data := buf.take offsetBegin,
    offsets := decodeU16s ((buf.drop offsetBegin).take (2 * numOfElements)) }

/-- `BlockBuilder` (src/block/builder.rs): offsets and serialized data of the
entries added so far, the size budget, and the first key of the block. -/
structure BlockBuilder where
  offsets : List Nat
  data : List Nat
  blockSize : Nat
  firstKey : Bytes
deriving DecidableEq

/-- `BlockBuilder::new`. -/
def BlockBuilder.new (blockSize : Nat) : BlockBuilder :=
  { offsets := [], data := [], blockSize := blockSize, firstKey := [] }

/-- `BlockBuilder::current_size`: entry data length plus two bytes per offset
plus two bytes for the element count. -/
def BlockBuilder.currentSize (b : BlockBuilder) : Nat :=
  b.data.length + 2 * b.offsets.length + 2

/-- `BlockBuilder::is_empty`: no data, no offsets, no first key recorded. -/
def BlockBuilder.isEmpty (b : BlockBuilder) : Bool :=
  b.data.isEmpty && b.offsets.isEmpty && b.firstKey.isEmpty

/-- `BlockBuilder::add`: rejects (returning the builder unchanged and `false`)
when the builder is non-empty and the size after adding the entry would reach
or exceed `block_size`; otherwise appends the serialized entry, records its
offset (cast `as u16`), initializes the first key if absent, and returns
`true`. -/
def BlockBuilder.add (b : BlockBuilder) (key value : Bytes) : BlockBuilder × Bool :=
  let sizeAfterAdd := b.currentSize + 2 + key.length + 2 + value.length + 2
  if !b.isEmpty && sizeAfterAdd ≥ b.blockSize then
    (b, false)
  else
    let offset := b.data.length
    let entry := le16 key.length ++ key ++ le16 value.length ++ value
    ({ b with
        data := b.data ++ entry,
        offsets := b.offsets ++ [offset % 65536],
        firstKey := if b.firstKey.isEmpty then b.firstKey ++ key else b.firstKey },
      true)

/-- `BlockBuilder::build`: package the accumulated data and offsets. -/
def BlockBuilder.build (b : BlockBuilder) : Block :=
  { data := b.data, offsets := b.offsets }

/-- Feed a sequence of entries to a `BlockBuilder` (each through
`BlockBuilder::add`, keeping the builder unchanged on rejection). -/
def blockAddAll (b : BlockBuilder) (entries : List (Bytes × Bytes)) : BlockBuilder :=
  entries.foldl (fun acc e => (acc.add e.1 e.2).1) b

/-- The block a `BlockBuilder` with the given size budget produces from a
sequence of entries. -/
def blockFromEntries (blockSize : Nat) (entries : List (Bytes × Bytes)) : Block :=
  (blockAddAll (BlockBuilder.new blockSize) entries).build

/-- `BlockMeta` (src/table.rs): file offset of a data block together with its
first and last key. -/
structure BlockMeta where
  offset : Nat
  firstKey : Bytes
  lastKey : Bytes
deriving DecidableEq

/-- `Ordering` result of comparing two byte strings, as `Ord::cmp` on
`&[u8]`. -/
def bytesCmp (a b : Bytes) : Ordering :=
  if bytesLt a b then .lt else if bytesLt b a then .gt else .eq

/-- The loop of Rust `slice::binary_search_by` over the block metas, compared
by `first_key` against the probe key (`SsTable::find_block_idx`).
`Except.ok` is an exact match, `Except.error` the insertion point. The fuel
argument only drives the recursion; `metas.length + 1` fuel always suffices
since the interval halves each step. -/
def binarySearchGo (metas : List BlockMeta) (key : Bytes) :
    Nat → Nat → Nat → Except Nat Nat
  | 0, left, _ => .error left
  | fuel + 1, left, right =>
    if left < right then
      let mid := left + (right - left) / 2
      match bytesCmp (metas.getD mid ⟨0, [], []⟩).firstKey key with
      | .lt => binarySearchGo metas key fuel (mid + 1) right
      | .gt => binarySearchGo metas key fuel left mid
      | .eq => .ok mid
    else .error left

/-- `slice::binary_search_by` over block metas keyed by `first_key`. -/
def binarySearchByFirstKey (metas : List BlockMeta) (key : Bytes) : Except Nat Nat :=
  binarySearchGo metas key (metas.length + 1) 0 metas.length

/-- `SsTable::find_block_idx` (src/table.rs): binary search the metas by
`first_key`; on an exact match return that index, otherwise inspect the
previous meta's `last_key` to decide between the previous and the found
insertion index, clamping to the final block. -/
def findBlockIdx (metas : List BlockMeta) (key : Bytes) : Nat :=
  match binarySearchByFirstKey metas key with
  | .ok idx => idx
  | .error idx =>
    if idx == 0 then idx
    else
      let prevIdx := idx - 1
      if bytesLt (metas.getD prevIdx ⟨0, [], []⟩).lastKey key then
        if idx == metas.length then idx - 1 else idx
      else prevIdx

/-- Index of the first block whose `last_key` is at least the given key, if
any. -/
def firstIdxWithLastKeyGE (key : Bytes) : List BlockMeta → Option Nat
  | [] => none
  | m :: rest =>
    if bytesLe key m.lastKey then some 0
    else (firstIdxWithLastKeyGE key rest).map (fun j => j + 1)

/-- The block index the claim about `find_block_idx` prescribes: the first
block whose `last_key` is at least the probe key, clamped to the final block
when every `last_key` is below the probe. Stated from the claim's words, to
be compared with `findBlockIdx`. -/
def claimBlockIdx (metas : List BlockMeta) (key : Bytes) : Nat :=
  match firstIdxWithLastKeyGE key metas with
  | some j => j
  | none => metas.length - 1

/-- An SSTable as the read path sees it (src/table.rs, `struct SsTable`):
its id, the cached first and last key, its block metas, and — extensionally —
the sorted sequence of entries stored in its data blocks, which is the
sequence its `SsTableIterator` yields from the start. -/
structure SsTable where
  id : Nat
  firstKey : Bytes
  lastKey : Bytes
  blockMeta : List BlockMeta
  data : List Nat
  entries : List (Bytes × Bytes)
deriving DecidableEq

/-- `SsTable::may_contain_key`: `first_key ≤ key ≤ last_key`. -/
def SsTable.mayContainKey (s : SsTable) (key : Bytes) : Bool :=
  bytesLe s.firstKey key && bytesLe key s.lastKey

/-- A range bound as in `std::ops::Bound` over owned byte strings. -/
inductive BoundB where
  | unbounded
  | included (b : Bytes)
  | excluded (b : Bytes)
deriving DecidableEq

/-- `SsTable::range_overlap`: false iff the table lies entirely below the
lower bound or entirely above the upper bound. -/
def SsTable.rangeOverlap (s : SsTable) (lower upper : BoundB) : Bool :=
  let lowerOk :=
    match lower with
    | .included b => !bytesLt s.lastKey b
    | .excluded b => !bytesLe s.lastKey b
    | .unbounded => true
  let upperOk :=
    match upper with
    | .included b => !bytesLt b s.firstKey
    | .excluded b => !bytesLe b s.firstKey
    | .unbounded => true
  lowerOk && upperOk

/-- Extensional yield of `SsTableIterator::create_and_seek_to_first`
(src/table/iterator.rs): the whole entry sequence of the table. -/
def sstSeekToFirst (s : SsTable) : List (Bytes × Bytes) := s.entries

/-- Extensional yield of `SsTableIterator::create_and_seek_to_key`
(src/table/iterator.rs): the iterator positions on the first entry with key
at least the probe (via `find_block_idx` and the block seek) and then yields
the rest of the table, so its yield drops the strictly smaller prefix. -/
def sstSeekToKey (s : SsTable) (key : Bytes) : List (Bytes × Bytes) :=
  s.entries.dropWhile (fun e => bytesLt e.1 key)

/-- The seek loop of `SstConcatIterator::create_and_seek_to_key`
(src/iterators/concat_iterator.rs), returning the extensional yield of the
resulting iterator: the first SST is opened at its start when the key is at
or before its first key; otherwise the loop opens the first SST whose
`may_contain_key` holds, seeked to the key; when no SST qualifies the
iterator is created invalid and yields nothing. After the chosen SST is
exhausted, `next` continues through all following SSTs from their start. -/
def concatSeekLoop (key : Bytes) : Nat → List SsTable → List (Bytes × Bytes)
  | _, [] => []
  | idx, sst :: rest =>
    if idx == 0 && bytesLe key sst.firstKey then
      sstSeekToFirst sst ++ rest.flatMap SsTable.entries
    else if sst.mayContainKey key then
      sstSeekToKey sst key ++ rest.flatMap SsTable.entries
    else
      concatSeekLoop key (idx + 1) rest

/-- Extensional yield of `SstConcatIterator::create_and_seek_to_key`. -/
def concatSeekToKey (sstables : List SsTable) (key : Bytes) : List (Bytes × Bytes) :=
  concatSeekLoop key 0 sstables

/-- Extensional yield of `SstConcatIterator::create_and_seek_to_first`. -/
def concatSeekToFirst (sstables : List SsTable) : List (Bytes × Bytes) :=
  sstables.flatMap SsTable.entries

/-- Smallest key among the heads of the source iterators, i.e. the top of the
merge iterator's min-heap. -/
def minHeadKey (ls : List (List (Bytes × Bytes))) : Option Bytes :=
  ls.foldr
    (fun l acc =>
      match l, acc with
      | [], a => a
      | e :: _, none => some e.1
      | e :: _, some k => some (if bytesLt e.1 k then e.1 else k))
    none

/-- Value paired with `k` in the first (highest-priority) source whose head
has key `k`. -/
def firstValueFor (k : Bytes) (ls : List (List (Bytes × Bytes))) : Bytes :=
  (ls.findSome?
    (fun l =>
      match l with
      | (k2, v) :: _ => if k2 == k then some v else none
      | [] => none)).getD []

/-- Advance past key `k` in every source whose head carries exactly `k`. -/
def popKey (k : Bytes) (ls : List (List (Bytes × Bytes))) : List (List (Bytes × Bytes)) :=
  ls.map
    (fun l =>
      match l with
      | (k2, v) :: rest => if k2 == k then rest else (k2, v) :: rest
      | [] => [])

/-- Modelled from the spec: `MergeIterator` (src/iterators/merge_iterator.rs
is not part of the sources). A min-heap keyed by (current key, source index)
merges the sources; on equal keys the lowest-index source wins and every
other source holding that key is advanced past it, so each distinct key is
yielded once with the value of the newest source. Extensionally the yield is
computed by repeatedly popping the minimal head key. Fuel bounds the
recursion; the total entry count suffices since each step consumes at least
one entry. -/
def mergeYieldGo : Nat → List (List (Bytes × Bytes)) → List (Bytes × Bytes)
  | 0, _ => []
  | fuel + 1, ls =>
    match minHeadKey ls with
    | none => []
    | some k => (k, firstValueFor k ls) :: mergeYieldGo fuel (popKey k ls)

/-- Extensional yield of `MergeIterator::create` over the given sources. -/
def mergeYield (ls : List (List (Bytes × Bytes))) : List (Bytes × Bytes) :=
  mergeYieldGo (ls.foldr (fun l acc => l.length + acc) 0) ls

/-- Modelled from the spec: `TwoMergeIterator`
(src/iterators/two_merge_iterator.rs is not part of the sources). A two-way
merge in which side `a` shadows side `b`: ties yield `a`'s entry and advance
both sides. Fuel bounds the recursion; the total length suffices. -/
def twoMergeYieldGo : Nat → List (Bytes × Bytes) → List (Bytes × Bytes) → List (Bytes × Bytes)
  | 0, _, _ => []
  | _ + 1, [], b => b
  | _ + 1, a, [] => a
  | fuel + 1, (ka, va) :: as, (kb, vb) :: bs =>
    if ka == kb then (ka, va) :: twoMergeYieldGo fuel as bs
    else if bytesLt ka kb then (ka, va) :: twoMergeYieldGo fuel as ((kb, vb) :: bs)
    else (kb, vb) :: twoMergeYieldGo fuel ((ka, va) :: as) bs

/-- Extensional yield of `TwoMergeIterator::create a b`. -/
def twoMergeYield (a b : List (Bytes × Bytes)) : List (Bytes × Bytes) :=
  twoMergeYieldGo (a.length + b.length) a b

/-- Check of the upper bound performed by `LsmIterator::is_valid`
(src/lsm_iterator.rs). -/
def upperBoundOk (upper : BoundB) (key : Bytes) : Bool :=
  match upper with
  | .included b => bytesLe key b
  | .excluded b => bytesLt key b
  | .unbounded => true

/-- Extensional yield of `LsmIterator` (src/lsm_iterator.rs) over an inner
iterator: entries with empty values are skipped by the constructor and by
`next`, and the iterator reports invalid as soon as the current key violates
the upper bound, so consumption stops there. -/
def lsmYield (inner : List (Bytes × Bytes)) (upper : BoundB) : List (Bytes × Bytes) :=
  (inner.filter (fun e => !e.2.isEmpty)).takeWhile (fun e => upperBoundOk upper e.1)

/-- Modelled from the spec: `MemTable` (src/mem_table.rs is not part of the
sources). An ordered map from key bytes to value bytes with an
approximate-size counter and its creation id. -/
structure MemTable where
  id : Nat
  entries : List (Bytes × Bytes)
  approximateSize : Nat
deriving DecidableEq

/-- `MemTable::create`: a fresh empty memtable with the given id. -/
def MemTable.create (id : Nat) : MemTable :=
  { id := id, entries := [], approximateSize := 0 }

/-- Insert into the sorted entry list, overwriting an existing binding. -/
def mtInsert (k v : Bytes) : List (Bytes × Bytes) → List (Bytes × Bytes)
  | [] => [(k, v)]
  | (k2, v2) :: rest =>
    if k == k2 then (k, v) :: rest
    else if bytesLt k k2 then (k, v) :: (k2, v2) :: rest
    else (k2, v2) :: mtInsert k v rest

/-- Modelled from the spec: `MemTable::put` inserts or overwrites and adds
`key.len + value.len` to the approximate-size counter. -/
def MemTable.put (m : MemTable) (k v : Bytes) : MemTable :=
  { m with
      entries := mtInsert k v m.entries,
      approximateSize := m.approximateSize + k.length + v.length }

/-- Modelled from the spec: `MemTable::get` returns the value currently bound
to the key, if any. -/
def MemTable.get (m : MemTable) (k : Bytes) : Option Bytes :=
  (m.entries.find? (fun e => e.1 == k)).map Prod.snd

/-- Check of the lower bound for a memtable range scan. -/
def lowerBoundOk (lower : BoundB) (key : Bytes) : Bool :=
  match lower with
  | .included b => bytesLe b key
  | .excluded b => bytesLt b key
  | .unbounded => true

/-- Modelled from the spec: `MemTable::scan` yields the entries whose keys
lie within the bounds, in key order. -/
def MemTable.scan (m : MemTable) (lower upper : BoundB) : List (Bytes × Bytes) :=
  m.entries.filter (fun e => lowerBoundOk lower e.1 && upperBoundOk upper e.1)

/-- The engine state relevant to the modelled operations: the published
`LsmStorageState` (src/lsm_storage.rs) plus the `next_sst_id` counter and the
options the operations read. The `sstables` map is modelled as an
association list. -/
structure EngineState where
  memtable : MemTable
  immMemtables : List MemTable
  l0Sstables : List Nat
  levels : List (Nat × List Nat)
  sstables : List (Nat × SsTable)
  nextSstId : Nat
  targetSstSize : Nat
  blockSize : Nat
deriving DecidableEq

/-- Lookup in the id-to-SST map; `none` models the
`unwrap_or_else(|| panic!(..))` at every call site. -/
def lookupSst (sstables : List (Nat × SsTable)) (id : Nat) : Option SsTable :=
  (sstables.find? (fun e => e.1 == id)).map Prod.snd

/-- How `get` turns a found raw value into its result: an empty value is the
tombstone and yields `None`. -/
def valueToGetResult (v : Bytes) : Option Bytes :=
  if v.isEmpty then none else some v

/-- The loop over the frozen memtables in `LsmStorageInner::get`: newest
first, returning the first binding found. -/
def immGet : List MemTable → Bytes → Option Bytes
  | [], _ => none
  | m :: rest, k =>
    match m.get k with
    | some v => some v
    | none => immGet rest k

/-- The `while` loop of `LsmStorageInner::get` over a merge iterator's yield:
scan forward while the current key is at most the probe; on an exact match
return the tombstone-filtered value; past the probe fall through to the next
layer (`none`). -/
def mergeGetLookup : List (Bytes × Bytes) → Bytes → Option (Option Bytes)
  | [], _ => none
  | (k, v) :: rest, key =>
    if bytesLe k key then
      if k == key then some (valueToGetResult v) else mergeGetLookup rest key
    else none

/-- `LsmStorageInner::get` (src/lsm_storage.rs): active memtable, then frozen
memtables newest first, then a merge over the L0 SSTs seeked to the key
(those that may contain it), then a merge over per-level concat iterators.
The outer `Option` is `none` when a referenced SST id is missing from the
map (a panic in the source). -/
def engineGet (st : EngineState) (key : Bytes) : Option (Option Bytes) :=
  match st.memtable.get key with
  | some v => some (valueToGetResult v)
  | none =>
    match immGet st.immMemtables key with
    | some v => some (valueToGetResult v)
    | none =>
      match st.l0Sstables.mapM (lookupSst st.sstables) with
      | none => none
      | some l0Ssts =>
        let l0Iters := (l0Ssts.filter (fun s => s.mayContainKey key)).map
          (fun s => sstSeekToKey s key)
        match mergeGetLookup (mergeYield l0Iters) key with
        | some r => some r
        | none =>
          match st.levels.mapM (fun lv => lv.2.mapM (lookupSst st.sstables)) with
          | none => none
          | some levelSsts =>
            let concatIters := levelSsts.map (fun ssts => concatSeekToKey ssts key)
            match mergeGetLookup (mergeYield concatIters) key with
            | some r => some r
            | none => some none

/-- `LsmStorageInner::force_freeze_memtable` (src/lsm_storage.rs): draw a
fresh id, allocate a new empty memtable with it, prepend the old active
memtable to the frozen list, and install the new active memtable. The
manifest record and directory fsync do not touch the published state. -/
def forceFreezeMemtable (st : EngineState) : EngineState :=
  { st with
      memtable := MemTable.create st.nextSstId,
      immMemtables := st.memtable :: st.immMemtables,
      nextSstId := st.nextSstId + 1 }

/-- `LsmStorageInner::put` (src/lsm_storage.rs): insert into the active
memtable, then freeze it when its approximate size reaches
`target_sst_size`. -/
def enginePut (st : EngineState) (key value : Bytes) : EngineState :=
  let afterInsert := { st with memtable := st.memtable.put key value }
  if afterInsert.memtable.approximateSize ≥ st.targetSstSize then
    forceFreezeMemtable afterInsert
  else afterInsert

/-- `LsmStorageInner::delete`: a put of the empty value. -/
def engineDelete (st : EngineState) (key : Bytes) : EngineState :=
  enginePut st key []

/-- Seek of one L0 SST iterator for `scan`'s lower bound: `Included` seeks to
the key, `Excluded` seeks and then advances once when positioned exactly on
the bound, `Unbounded` seeks to the first entry. -/
def sstSeekBound (s : SsTable) (lower : BoundB) : List (Bytes × Bytes) :=
  match lower with
  | .included k => sstSeekToKey s k
  | .excluded k =>
    match sstSeekToKey s k with
    | (k2, v) :: rest => if k2 == k then rest else (k2, v) :: rest
    | [] => []
  | .unbounded => sstSeekToFirst s

/-- Seek of one level's concat iterator for `scan`'s lower bound, with the
same `Excluded` adjustment. -/
def concatSeekBound (ssts : List SsTable) (lower : BoundB) : List (Bytes × Bytes) :=
  match lower with
  | .included k => concatSeekToKey ssts k
  | .excluded k =>
    match concatSeekToKey ssts k with
    | (k2, v) :: rest => if k2 == k then rest else (k2, v) :: rest
    | [] => []
  | .unbounded => concatSeekToFirst ssts

/-- `LsmStorageInner::scan` (src/lsm_storage.rs): merge the memtable scans,
two-merge with the merge of the L0 SST iterators (filtered by
`range_overlap`, seeked per the lower bound), two-merge with the merge of
the per-level concat iterators, then wrap in `LsmIterator` (tombstone skip
and upper bound; the fused wrapper does not change the yield). The outer
`Option` is `none` when a referenced SST id is missing (panic). -/
def engineScan (st : EngineState) (lower upper : BoundB) : Option (List (Bytes × Bytes)) :=
  let memtableIters := (st.memtable :: st.immMemtables).map (fun m => m.scan lower upper)
  let memtableMerge := mergeYield memtableIters
  match st.l0Sstables.mapM (lookupSst st.sstables) with
  | none => none
  | some l0Ssts =>
    let l0Iters := (l0Ssts.filter (fun s => s.rangeOverlap lower upper)).map
      (fun s => sstSeekBound s lower)
    let l0Merge := mergeYield l0Iters
    match st.levels.mapM (fun lv => lv.2.mapM (lookupSst st.sstables)) with
    | none => none
    | some levelSsts =>
      let concatIters := levelSsts.map (fun ssts => concatSeekBound ssts lower)
      let lowerLevelMerge := mergeYield concatIters
      some (lsmYield (twoMergeYield (twoMergeYield memtableMerge l0Merge) lowerLevelMerge) upper)

/-- `BlockMeta::encode_block_meta` (src/table.rs): per meta, the two key
lengths as `u16`, the block offset as `u32`, then the two keys. -/
def encodeBlockMeta (metas : List BlockMeta) : List Nat :=
  metas.flatMap
    (fun m => le16 m.firstKey.length ++ le16 m.lastKey.length ++ le32 m.offset
      ++ m.firstKey ++ m.lastKey)

/-- `SsTableBuilder` (src/table/builder.rs): the current block builder, the
first/last key of the current block, the sealed data region, the meta array,
and the block size budget. The extra `entriesAcc` field is extensional
bookkeeping — the entries added so far, in order — used to state properties
of the produced table; it mirrors no Rust field. -/
structure SsTableBuilder where
  builder : BlockBuilder
  firstKey : Bytes
  lastKey : Bytes
  data : List Nat
  meta : List BlockMeta
  blockSize : Nat
  entriesAcc : List (Bytes × Bytes)
deriving DecidableEq

/-- `SsTableBuilder::new`. -/
def SsTableBuilder.new (blockSize : Nat) : SsTableBuilder :=
  { builder := BlockBuilder.new blockSize, firstKey := [], lastKey := [],
    data := [], meta := [], blockSize := blockSize, entriesAcc := [] }

/-- `SsTableBuilder::save_block`: seal the current block — append its
encoding to the data region, push a `BlockMeta` with the data-region offset
and the current first/last keys, and reset the block builder and keys. -/
def SsTableBuilder.saveBlock (s : SsTableBuilder) : SsTableBuilder :=
  let block := s.builder.build
  { s with
      builder := BlockBuilder.new s.blockSize,
      data := s.data ++ block.encode,
      meta := s.meta ++ [{ offset := s.data.length, firstKey := s.firstKey, lastKey := s.lastKey }],
      firstKey := [],
      lastKey := [] }

/-- `SsTableBuilder::update_first_and_last_key`. -/
def SsTableBuilder.updateKeys (s : SsTableBuilder) (key : Bytes) : SsTableBuilder :=
  { s with
      firstKey := if s.firstKey.isEmpty then key else s.firstKey,
      lastKey := key }

/-- `SsTableBuilder::add`: try the current block; on rejection seal it and
retry on the fresh block (the retry always succeeds — `assert!` in the
source — because an empty `BlockBuilder` accepts any first entry). -/
def SsTableBuilder.add (s : SsTableBuilder) (key value : Bytes) : SsTableBuilder :=
  match s.builder.add key value with
  | (b2, true) =>
    { s.updateKeys key with builder := b2, entriesAcc := s.entriesAcc ++ [(key, value)] }
  | (_, false) =>
    let s2 := s.saveBlock
    let b2 := (s2.builder.add key value).1
    { s2.updateKeys key with builder := b2, entriesAcc := s2.entriesAcc ++ [(key, value)] }

/-- `SsTableBuilder::estimated_size`: length of the sealed data region. -/
def SsTableBuilder.estimatedSize (s : SsTableBuilder) : Nat :=
  s.data.length

/-- `SsTableBuilder::build` (src/table/builder.rs): seal a trailing non-empty
block, assemble data region, encoded meta, and the `u32` meta offset, and
construct the table with first/last key taken from `meta.first()` and
`meta.last()`. Those calls `unwrap()`: when no entry was ever added the meta
array is empty and the source panics, modelled as `none`. -/
def SsTableBuilder.build (s : SsTableBuilder) (id : Nat) : Option SsTable :=
  let s2 := if !s.builder.isEmpty then s.saveBlock else s
  match s2.meta with
  | [] => none
  | m0 :: _ =>
    some
      { id := id,
        firstKey := m0.firstKey,
        lastKey := (s2.meta.getLastD m0).lastKey,
        blockMeta := s2.meta,
        data := s2.data ++ encodeBlockMeta s2.meta ++ le32 s2.data.length,
        entries := s2.entriesAcc }

/-- Running state of the compaction merge loop shared by
`LsmStorageInner::compact_two_levels` (both branches) and the Tiered branch
of `LsmStorageInner::compact` (src/compact.rs): the open SST builder, the
SSTs sealed so far, and the `next_sst_id` counter. -/
structure CompactAcc where
  builder : SsTableBuilder
  outputs : List SsTable
  nextId : Nat
deriving DecidableEq

/-- One iteration of the compaction merge loop: entries with empty values
are skipped unconditionally; otherwise the entry is added, and when the
estimated size reaches `target_sst_size` the builder is sealed into an SST
under a fresh id. `none` propagates a panic. -/
def compactStep (targetSstSize blockSize : Nat) (acc : Option CompactAcc)
    (e : Bytes × Bytes) : Option CompactAcc :=
  match acc with
  | none => none
  | some a =>
    if e.2.isEmpty then some a
    else
      let b := a.builder.add e.1 e.2
      if b.estimatedSize ≥ targetSstSize then
        match b.build a.nextId with
        | none => none
        | some sst =>
          some { builder := SsTableBuilder.new blockSize,
                 outputs := a.outputs ++ [sst], nextId := a.nextId + 1 }
      else some { a with builder := b }

/-- The compaction merge loop over the merged entry sequence, starting from
a fresh builder and the given id counter. -/
def compactMergeLoop (targetSstSize blockSize startId : Nat)
    (entries : List (Bytes × Bytes)) : Option CompactAcc :=
  entries.foldl (compactStep targetSstSize blockSize)
    (some { builder := SsTableBuilder.new blockSize, outputs := [], nextId := startId })

/-- The trailing build after the merge loop: residual data is collected into
one final SST (`sst_builder.build(..)` on the leftover builder). -/
def compactFinish (acc : Option CompactAcc) : Option (List SsTable × Nat) :=
  match acc with
  | none => none
  | some a =>
    match a.builder.build a.nextId with
    | none => none
    | some sst => some (a.outputs ++ [sst], a.nextId + 1)

/-- Merge loop plus trailing build: the common body of every compaction
branch, applied to the merged input entries. -/
def compactEntries (targetSstSize blockSize startId : Nat)
    (entries : List (Bytes × Bytes)) : Option (List SsTable × Nat) :=
  compactFinish (compactMergeLoop targetSstSize blockSize startId entries)

/-- `LsmStorageInner::compact_two_levels` (src/compact.rs): resolve the lower
level into a concat iterator; for an L0 compaction merge the upper SST
iterators with a `MergeIterator`, otherwise use a concat iterator; two-merge
upper over lower and run the merge loop plus trailing build. -/
def compactTwoLevels (sstables : List (Nat × SsTable)) (targetSstSize blockSize startId : Nat)
    (upperLevel lowerLevel : List Nat) (l0Compaction : Bool) :
    Option (List SsTable × Nat) :=
  match lowerLevel.mapM (lookupSst sstables) with
  | none => none
  | some lowerSsts =>
    let lowerConcat := concatSeekToFirst lowerSsts
    match upperLevel.mapM (lookupSst sstables) with
    | none => none
    | some upperSsts =>
      let upperIter :=
        if l0Compaction then mergeYield (upperSsts.map sstSeekToFirst)
        else concatSeekToFirst upperSsts
      compactEntries targetSstSize blockSize startId (twoMergeYield upperIter lowerConcat)

/-- `SimpleLeveledCompactionTask` (src/compact/simple_leveled.rs). -/
structure SimpleLeveledCompactionTask where
  upperLevel : Option Nat
  upperLevelSstIds : List Nat
  lowerLevel : Nat
  lowerLevelSstIds : List Nat
  isLowerLevelBottomLevel : Bool
deriving DecidableEq

/-- `TieredCompactionTask` (src/compact/tiered.rs). -/
structure TieredCompactionTask where
  tiers : List (Nat × List Nat)
  bottomTierIncluded : Bool
deriving DecidableEq

/-- `CompactionTask` (src/compact.rs). The `Leveled` variant is omitted:
its compaction branch is `unimplemented!()` and its controller is not among
the sources. -/
inductive CompactionTask where
  | simple (t : SimpleLeveledCompactionTask)
  | tiered (t : TieredCompactionTask)
  | forceFullCompaction (l0Sstables l1Sstables : List Nat)
deriving DecidableEq

/-- `CompactionTask::compact_to_bottom_level` (src/compact.rs). -/
def CompactionTask.compactToBottomLevel : CompactionTask → Bool
  | .forceFullCompaction _ _ => true
  | .simple t => t.isLowerLevelBottomLevel
  | .tiered t => t.bottomTierIncluded

/-- `LsmStorageInner::compact` (src/compact.rs): dispatch on the task. The
Tiered branch merges per-tier concat iterators and runs the same loop; the
Simple branch calls `compact_two_levels` with `upper_level.is_none()` as the
L0 flag; `ForceFullCompaction` calls it with the L0 flag set. Note that no
branch consults `compact_to_bottom_level`. -/
def engineCompact (sstables : List (Nat × SsTable)) (targetSstSize blockSize startId : Nat)
    (task : CompactionTask) : Option (List SsTable × Nat) :=
  match task with
  | .tiered t =>
    match t.tiers.mapM (fun tier => tier.2.mapM (lookupSst sstables)) with
    | none => none
    | some tierSsts =>
      let tierConcatIters := tierSsts.map concatSeekToFirst
      compactEntries targetSstSize blockSize startId (mergeYield tierConcatIters)
  | .simple t =>
    compactTwoLevels sstables targetSstSize blockSize startId
      t.upperLevelSstIds t.lowerLevelSstIds t.upperLevel.isNone
  | .forceFullCompaction l0 l1 =>
    compactTwoLevels sstables targetSstSize blockSize startId l0 l1 true

/-- `ManifestRecord` (src/manifest.rs). -/
inductive ManifestRecord where
  | flush (sstId : Nat)
  | newMemtable (id : Nat)
  | compaction (task : CompactionTask) (outputSstIds : List Nat)
deriving DecidableEq

/-- `CompactionController` (src/compact.rs) as the manifest replay consults
it. The controllers carry options in the source, but
`apply_compaction_result` never reads them, so only the variant matters
here; `Leveled` is omitted (its module is not among the sources). -/
inductive CompactionController where
  | simple
  | tiered
  | noCompaction
deriving DecidableEq

/-- `CompactionController::flush_to_l0`: true for `Simple` and
`NoCompaction` (and `Leveled`, omitted), false for `Tiered`. -/
def CompactionController.flushToL0 : CompactionController → Bool
  | .simple => true
  | .noCompaction => true
  | .tiered => false

/-- The level layout a manifest replay reconstructs: the L0 stack and the
per-level SST lists of `LsmStorageState`. -/
structure LayoutState where
  l0Sstables : List Nat
  levels : List (Nat × List Nat)
deriving DecidableEq

/-- Replace the SST list of the level at `idx`, keeping its label
(`snapshot.levels[idx].1 = ids` in the source; the call sites index in
range). -/
def setLevel (levels : List (Nat × List Nat)) (idx : Nat) (ids : List Nat) :
    List (Nat × List Nat) :=
  levels.set idx ((levels.getD idx (0, [])).1, ids)

/-- `SimpleLeveledCompactionController::apply_compaction_result`
(src/compact/simple_leveled.rs): clear the upper side (the named level, or
L0 when `upper_level` is `None`) collecting its ids for removal, then
replace the lower level's list with the compaction output, collecting its
old ids as well. -/
def simpleApplyCompactionResult (snapshot : LayoutState)
    (task : SimpleLeveledCompactionTask) (compactedSstIds : List Nat) :
    LayoutState × List Nat :=
  let cleared :=
    match task.upperLevel with
    | some upperLevel =>
      (({ snapshot with levels := setLevel snapshot.levels (upperLevel - 1) [] } : LayoutState),
        (snapshot.levels.getD (upperLevel - 1) (0, [])).2)
    | none => (({ snapshot with l0Sstables := [] } : LayoutState), snapshot.l0Sstables)
  let afterUpper := cleared.1
  let removedLower := (afterUpper.levels.getD (task.lowerLevel - 1) (0, [])).2
  ({ afterUpper with levels := setLevel afterUpper.levels (task.lowerLevel - 1) compactedSstIds },
    cleared.2 ++ removedLower)

/-- `TieredCompactionController::apply_compaction_result`
(src/compact/tiered.rs): collect every id of the compacted tiers for
removal, drop those tiers from `levels`, and prepend one new tier labelled
by the first output id (the source indexes `compacted_sst_ids[0]`; the
output of a compaction is non-empty). -/
def tieredApplyCompactionResult (snapshot : LayoutState)
    (task : TieredCompactionTask) (compactedSstIds : List Nat) :
    LayoutState × List Nat :=
  let removed := task.tiers.flatMap Prod.snd
  let kept := snapshot.levels.filter (fun tier => !task.tiers.contains tier)
  ({ snapshot with levels := (compactedSstIds.getD 0 0, compactedSstIds) :: kept }, removed)

/-- `CompactionController::apply_compaction_result` (src/compact.rs): the
`Simple` and `Tiered` pairings delegate to their controllers; every other
pairing — in particular any `ForceFullCompaction` task — falls into the
`_ => unreachable!()` arm and panics, modelled as `none`. -/
def applyCompactionResult (ctrl : CompactionController) (snapshot : LayoutState)
    (task : CompactionTask) (output : List Nat) :
    Option (LayoutState × List Nat) :=
  match ctrl, task with
  | .simple, .simple t => some (simpleApplyCompactionResult snapshot t output)
  | .tiered, .tiered t => some (tieredApplyCompactionResult snapshot t output)
  | _, _ => none

/-- Accumulator of the manifest-replay loop in `LsmStorageInner::open`
(src/lsm_storage.rs): the live-SST id set, the reconstructed layout, and the
recovered memtable id set. The sets are modelled as duplicate-free lists. -/
structure ReplayState where
  sstIds : List Nat
  layout : LayoutState
  memtableIds : List Nat
deriving DecidableEq

/-- Set insertion for the id sets. -/
def idInsert (s : List Nat) (id : Nat) : List Nat :=
  if s.contains id then s else s ++ [id]

/-- Set removal for the id sets. -/
def idRemove (s : List Nat) (id : Nat) : List Nat :=
  s.filter (fun x => x ≠ id)

/-- One step of the manifest replay loop in `LsmStorageInner::open`:
`Flush` inserts the id into the live set and pushes it onto L0 (or a fresh
tier when the controller does not flush to L0); `NewMemtable` records the
id; `Compaction` applies the controller, removing then inserting ids. A
`none` latches the `unreachable!()` panic. -/
def replayRecord (ctrl : CompactionController) (acc : Option ReplayState)
    (r : ManifestRecord) : Option ReplayState :=
  match acc with
  | none => none
  | some st =>
    match r with
    | .flush sstId =>
      some { st with
        sstIds := idInsert st.sstIds sstId,
        layout :=
          if ctrl.flushToL0 then
            { st.layout with l0Sstables := sstId :: st.layout.l0Sstables }
          else
            { st.layout with levels := (sstId, [sstId]) :: st.layout.levels } }
    | .newMemtable id => some { st with memtableIds := idInsert st.memtableIds id }
    | .compaction task ids =>
      match applyCompactionResult ctrl st.layout task ids with
      | none => none
      | some (newLayout, removed) =>
        some { st with
          layout := newLayout,
          sstIds := ids.foldl idInsert (removed.foldl idRemove st.sstIds) }

/-- The manifest replay of `LsmStorageInner::open`: fold every recovered
record over the state created by `LsmStorageState::create` (whose initial
`levels` depend on the compaction options, passed here as `initLevels`). -/
def replayManifest (ctrl : CompactionController) (initLevels : List (Nat × List Nat))
    (records : List ManifestRecord) : Option ReplayState :=
  records.foldl (replayRecord ctrl)
    (some { sstIds := [], layout := { l0Sstables := [], levels := initLevels }, memtableIds := [] })

/-- `Wal` (src/wal.rs): the `BufWriter<File>` is modelled by the bytes
sitting in the user-space buffer and the bytes already written to the
file. -/
structure Wal where
  buffer : List Nat
  file : List Nat
deriving DecidableEq

/-- A freshly created WAL over an empty file. -/
def Wal.create : Wal := { buffer := [], file := [] }

/-- `BufWriter::write_all` with the default 8192-byte capacity: flush the
buffer first when the incoming bytes would overflow it, write oversized
payloads straight through, and otherwise append to the buffer. -/
def bufWriterWrite (w : Wal) (buf : List Nat) : Wal :=
  if w.buffer.length + buf.length > 8192 then
    let flushedFile := w.file ++ w.buffer
    if buf.length ≥ 8192 then { buffer := [], file := flushedFile ++ buf }
    else { buffer := buf, file := flushedFile }
  else { w with buffer := w.buffer ++ buf }

/-- `Wal::put` (src/wal.rs): serialize
`key_len(u32) | key | value_len(u32) | value` and `write_all` it through the
buffered writer. -/
def Wal.put (w : Wal) (key value : Bytes) : Wal :=
  let record := le32 key.length ++ key ++ le32 value.length ++ value
  bufWriterWrite w record

/-- `Wal::sync` (src/wal.rs): lock the writer and call
`writer.get_mut().sync_all()`. `get_mut` hands out the underlying `File`
without flushing the `BufWriter`, so the bytes made durable by the fsync are
exactly the bytes previously written to the file — the buffer content is not
written out. The second component is the durable file content after the
call. -/
def Wal.sync (w : Wal) : Wal × List Nat :=
  (w, w.file)

/-- The record-decoding loop of `Wal::recover` (src/wal.rs): read a `u32`
key length, the key, a `u32` value length, and the value, repeatedly. Fuel
bounds the recursion; the buffer length suffices since every record consumes
at least eight bytes. -/
def walDecodeGo : Nat → List Nat → List (Bytes × Bytes)
  | 0, _ => []
  | fuel + 1, buf =>
    match buf with
    | b0 :: b1 :: b2 :: b3 :: rest =>
      let keyLen := readU32le b0 b1 b2 b3
      let key := rest.take keyLen
      match rest.drop keyLen with
      | c0 :: c1 :: c2 :: c3 :: rest2 =>
        let valueLen := readU32le c0 c1 c2 c3
        (key, rest2.take valueLen) :: walDecodeGo fuel (rest2.drop valueLen)
      | _ => []
    | _ => []

/-- The records `Wal::recover` reads back from the given file content. -/
def walRecoverRecords (fileBytes : List Nat) : List (Bytes × Bytes) :=
  walDecodeGo fileBytes.length fileBytes

/-- The admission condition the claim about `BlockBuilder::add` prescribes:
a non-empty builder admits the entry iff the size after adding it is at most
`block_size` (equality admitted); an empty builder always admits. Stated
from the claim's words, to be compared with `BlockBuilder.add`. -/
def claimAdmits (b : BlockBuilder) (key value : Bytes) : Bool :=
  b.isEmpty || (b.currentSize + 2 + key.length + 2 + value.length + 2 ≤ b.blockSize)

/-- A builder at capacity 16 holding one entry of six data bytes: adding an
empty-key empty-value entry makes the size exactly 16. -/
def c7Builder : BlockBuilder := ((BlockBuilder.new 16).add [0] [1]).1

/-- Builder state after `j` additions of the empty entry under a huge block
budget: `j` offsets (each pushed modulo `2^16`) and `4 j` data bytes. -/
def c8StateJ (j : Nat) : BlockBuilder :=
  { offsets := (List.range j).map (fun i => 4 * i % 65536),
    data := List.replicate (4 * j) 0,
    blockSize := 1000000,
    firstKey := [] }

/-- A builder-produced block holding 65536 entries: the `u16` element count
written by `Block::encode` wraps to zero. -/
def c8Block : Block := blockFromEntries 1000000 (List.replicate 65536 ([], []))

/-- Metas satisfying the claim's non-strict ordering invariants with an
equal boundary: block 0 is `[[0], [0]]` and block 1 is `[[0], [1]]`. -/
def c9Metas : List BlockMeta := [⟨0, [0], [0]⟩, ⟨1, [0], [1]⟩]

/-- Strictly ordered metas used to instantiate the amended
`find_block_idx` theorem. -/
def c9StrictMetas : List BlockMeta := [⟨0, [0], [0]⟩, ⟨1, [2], [3]⟩]

/-- A one-entry SST with key range `[[1], [1]]`, listed in a lower level. -/
def c2SstA : SsTable :=
  { id := 1, firstKey := [1], lastKey := [1], blockMeta := [⟨0, [1], [1]⟩],
    data := [], entries := [([1], [10])] }

/-- A one-entry SST with key range `[[3], [3]]`, following `c2SstA` in the
same lower level. -/
def c2SstB : SsTable :=
  { id := 2, firstKey := [3], lastKey := [3], blockMeta := [⟨0, [3], [3]⟩],
    data := [], entries := [([3], [30])] }

/-- Engine state whose only data lives in level 1 as two disjoint SSTs with
a key gap between them. -/
def c2State : EngineState :=
  { memtable := MemTable.create 3, immMemtables := [], l0Sstables := [],
    levels := [(1, [1, 2])], sstables := [(1, c2SstA), (2, c2SstB)],
    nextSstId := 4, targetSstSize := 1048576, blockSize := 4096 }

/-- Upper-level SST for the tombstone-compaction scenario: a tombstone for
key `[1]` and a live entry for key `[2]`. -/
def c4Upper : SsTable :=
  { id := 10, firstKey := [1], lastKey := [2], blockMeta := [⟨0, [1], [2]⟩],
    data := [], entries := [([1], []), ([2], [7])] }

/-- Lower-level SST for the tombstone-compaction scenario: an older live
value for key `[1]`. -/
def c4Lower : SsTable :=
  { id := 11, firstKey := [1], lastKey := [1], blockMeta := [⟨0, [1], [1]⟩],
    data := [], entries := [([1], [9])] }

/-- The id map for the tombstone-compaction scenario. -/
def c4Sstables : List (Nat × SsTable) := [(10, c4Upper), (11, c4Lower)]

/-- A simple-leveled compaction task from level 1 into level 2 whose target
is not the bottom level. -/
def c4Task : CompactionTask :=
  .simple { upperLevel := some 1, upperLevelSstIds := [10], lowerLevel := 2,
            lowerLevelSstIds := [11], isLowerLevelBottomLevel := false }

/-- An SST holding only a tombstone, input of a compaction whose merge
yields no live entry. -/
def c5Upper : SsTable :=
  { id := 20, firstKey := [1], lastKey := [1], blockMeta := [⟨0, [1], [1]⟩],
    data := [], entries := [([1], [])] }

/-- A WAL holding one ten-byte record that still sits in the `BufWriter`
buffer. -/
def c6Wal : Wal := Wal.create.put [1] [2]

/-- The `first_key` of the meta at index `i` (with the default meta out of
range), as `find_block_idx` accesses the meta array. -/
def metaFK (metas : List BlockMeta) (i : Nat) : Bytes :=
  (metas.getD i ⟨0, [], []⟩).firstKey

/-- The `last_key` of the meta at index `i` (with the default meta out of
range). -/
def metaLK (metas : List BlockMeta) (i : Nat) : Bytes :=
  (metas.getD i ⟨0, [], []⟩).lastKey

theorem bytesLt_irrefl (a : Bytes) : bytesLt a a = false := by
  induction a with
  | nil => rfl
  | cons x xs ih => simp [bytesLt, ih]

theorem bytesLt_trans : ∀ {a b c : Bytes}, bytesLt a b = true → bytesLt b c = true →
    bytesLt a c = true
  | [], _ :: _, _ :: _, _, _ => rfl
  | [], [], _, h1, _ => by simp [bytesLt] at h1
  | _, _ :: _, [], _, h2 => by simp [bytesLt] at h2
  | _ :: _, [], _, h1, _ => by simp [bytesLt] at h1
  | a :: as, b :: bs, c :: cs, h1, h2 => by
    simp only [bytesLt, Bool.or_eq_true, Bool.and_eq_true, decide_eq_true_eq, beq_iff_eq] at h1 h2 ⊢
    rcases h1 with h1 | ⟨rfl, h1⟩
    · rcases h2 with h2 | ⟨rfl, h2⟩
      · exact Or.inl (Nat.lt_trans h1 h2)
      · exact Or.inl h1
    · rcases h2 with h2 | ⟨rfl, h2⟩
      · exact Or.inl h2
      · exact Or.inr ⟨rfl, bytesLt_trans h1 h2⟩

theorem bytesLt_conn : ∀ {a b : Bytes}, bytesLt a b = false → bytesLt b a = false → a = b
  | [], [], _, _ => rfl
  | [], _ :: _, h1, _ => by simp [bytesLt] at h1
  | _ :: _, [], _, h2 => by simp [bytesLt] at h2
  | a :: as, b :: bs, h1, h2 => by
    simp only [bytesLt, Bool.or_eq_false_iff, Bool.and_eq_false_iff, decide_eq_false_iff_not,
      beq_eq_false_iff_ne, ne_eq] at h1 h2
    have hab : a = b := by omega
    subst hab
    rcases h1.2 with h | h
    · exact absurd rfl h
    · rcases h2.2 with h' | h'
      · exact absurd rfl h'
      · exact congrArg (a :: ·) (bytesLt_conn h h')

theorem bytesLt_asymm {a b : Bytes} (h : bytesLt a b = true) : bytesLt b a = false := by
  cases h2 : bytesLt b a with
  | false => rfl
  | true => exact absurd (bytesLt_trans h h2) (by simp [bytesLt_irrefl])

theorem bytesLe_iff {a b : Bytes} : bytesLe a b = true ↔ bytesLt b a = false := by
  constructor
  · intro h
    simp only [bytesLe, Bool.or_eq_true, beq_iff_eq] at h
    rcases h with h | rfl
    · exact bytesLt_asymm h
    · exact bytesLt_irrefl a
  · intro h
    cases h2 : bytesLt a b with
    | true => simp [bytesLe, h2]
    | false => simp [bytesLe, h2, bytesLt_conn h2 h]

theorem bytesLt_to_le {a b : Bytes} (h : bytesLt a b = true) : bytesLe a b = true := by
  simp [bytesLe, h]

theorem bytesLe_refl (a : Bytes) : bytesLe a a = true := by
  simp [bytesLe]

theorem bytesLe_lt_trans {a b c : Bytes} (h1 : bytesLe a b = true) (h2 : bytesLt b c = true) :
    bytesLt a c = true := by
  simp only [bytesLe, Bool.or_eq_true, beq_iff_eq] at h1
  rcases h1 with h1 | rfl
  · exact bytesLt_trans h1 h2
  · exact h2

theorem bytesLt_le_trans {a b c : Bytes} (h1 : bytesLt a b = true) (h2 : bytesLe b c = true) :
    bytesLt a c = true := by
  simp only [bytesLe, Bool.or_eq_true, beq_iff_eq] at h2
  rcases h2 with h2 | rfl
  · exact bytesLt_trans h1 h2
  · exact h1

theorem bytesLe_trans {a b c : Bytes} (h1 : bytesLe a b = true) (h2 : bytesLe b c = true) :
    bytesLe a c = true := by
  simp only [bytesLe, Bool.or_eq_true, beq_iff_eq] at h1
  rcases h1 with h1 | rfl
  · exact bytesLt_to_le (bytesLt_le_trans h1 h2)
  · exact h2

theorem mtInsert_find (k v : Bytes) (l : List (Bytes × Bytes)) :
    ((mtInsert k v l).find? (fun e => e.1 == k)).map Prod.snd = some v := by
  induction l with
  | nil => simp [mtInsert]
  | cons e rest ih =>
    obtain ⟨k2, v2⟩ := e
    by_cases hk : k = k2
    · subst hk; simp [mtInsert]
    · have hk2 : (k == k2) = false := by simpa using hk
      have hk2' : (k2 == k) = false := by simpa using Ne.symm hk
      by_cases hlt : bytesLt k k2 = true
      · simp [mtInsert, hk2, hlt]
      · simp [mtInsert, hk2, hlt, List.find?_cons, hk2', ih]

/-- Claim C1: a `put(k, v)` immediately followed by `get(k)` returns
`Some v` for non-empty `v` and `None` for the empty value, and `delete(k)`
(a put of the empty value) makes `get(k)` return `None`; this holds whether
or not the put triggered a freeze of the memtable. -/
theorem put_then_get_returns_value (st : EngineState) (k v : Bytes) :
    engineGet (enginePut st k v) k = some (valueToGetResult v)
    ∧ engineGet (engineDelete st k) k = some none := by
  have main : ∀ (st' : EngineState) (v' : Bytes),
      engineGet (enginePut st' k v') k = some (valueToGetResult v') := by
    intro st' v'
    by_cases hc :
        st'.targetSstSize ≤ st'.memtable.approximateSize + k.length + v'.length
    · simp [enginePut, MemTable.put, ge_iff_le, hc, engineGet, forceFreezeMemtable,
        MemTable.create, MemTable.get, immGet, mtInsert_find]
    · simp [enginePut, MemTable.put, ge_iff_le, hc, engineGet, MemTable.get, mtInsert_find]
  exact ⟨main st v, main st []⟩

/-- Claim C2 (code bug): in the state `c2State`, key `[3]` is live in a
lower-level SST and lies inside the scan range `[[2], +∞)`, and `get`
retrieves it — yet `scan` yields nothing, because
`SstConcatIterator::create_and_seek_to_key` finds no SST whose
`may_contain_key` holds for a key that falls in the gap between two SSTs
and so creates an invalid iterator instead of seeking to the next SST. -/
theorem scan_misses_live_key_between_ssts :
    engineScan c2State (BoundB.included [2]) BoundB.unbounded = some []
    ∧ c2State.levels = [(1, [1, 2])]
    ∧ lookupSst c2State.sstables 2 = some c2SstB
    ∧ ([3], [30]) ∈ c2SstB.entries
    ∧ lowerBoundOk (BoundB.included [2]) [3] = true
    ∧ concatSeekToKey [c2SstA, c2SstB] [2] = []
    ∧ engineGet c2State [3] = some (some [30]) := by decide

/-- Claim C3 (code bug): replaying a manifest that contains the
`Compaction(ForceFull, ..)` record written by `force_full_compaction`
panics: `CompactionController::apply_compaction_result` has no arm for the
`ForceFullCompaction` task and hits `unreachable!()`, so reopening the
directory cannot reconstruct the state. The replay works up to that record
and the failing step is pinpointed in the last conjunct. -/
theorem manifest_replay_panics_on_force_full_record :
    replayManifest .noCompaction [(1, [])]
      [.newMemtable 1, .flush 2, .compaction (.forceFullCompaction [2] []) [3]] = none
    ∧ (replayManifest .noCompaction [(1, [])] [.newMemtable 1, .flush 2]).map
        ReplayState.layout = some ⟨[2], [(1, [])]⟩
    ∧ applyCompactionResult .noCompaction ⟨[2], [(1, [])]⟩
        (.forceFullCompaction [2] []) [3] = none := by decide

/-- Claim C4 (code bug): a simple-leveled compaction whose target is not the
bottom level (`compact_to_bottom_level` false) merges a newest-version
tombstone for key `[1]` over an older live value, yet the compaction output
contains only the live key `[2]`: the merge loops of
`compact_two_levels`/`compact` skip every empty value unconditionally and
never consult `compact_to_bottom_level`, so the tombstone is dropped and the
older value below would resurface. -/
theorem nonbottom_compaction_drops_tombstone :
    CompactionTask.compactToBottomLevel c4Task = false
    ∧ twoMergeYield (concatSeekToFirst [c4Upper]) (concatSeekToFirst [c4Lower])
        = [([1], []), ([2], [7])]
    ∧ (engineCompact c4Sstables 1048576 4096 12 c4Task).map
        (fun out => out.1.flatMap SsTable.entries) = some [([2], [7])] := by decide

/-- Claim C6 (code bug): after `Wal::put` of a small record followed by
`Wal::sync`, the record still sits in the `BufWriter` buffer: `sync` calls
`get_mut().sync_all()` without flushing the writer, so the durable file is
empty and `Wal::recover` of it yields no records. -/
theorem wal_sync_leaves_buffer_unsynced :
    c6Wal = Wal.create.put [1] [2]
    ∧ c6Wal.buffer = [1, 0, 0, 0, 1, 1, 0, 0, 0, 2]
    ∧ c6Wal.sync.2 = []
    ∧ walRecoverRecords c6Wal.sync.2 = [] := by decide

/-- Claim C7, counterexample: `c7Builder` is non-empty and adding the
empty-key empty-value entry makes the block size exactly equal to
`block_size = 16`; the claim admits such an entry (`claimAdmits` is true)
but `BlockBuilder::add` rejects it, because the source rejects on
`size_after_add >= block_size`. -/
theorem block_add_rejects_exact_fit :
    c7Builder.isEmpty = false
    ∧ c7Builder.currentSize + 2 + List.length ([] : Bytes) + 2 + List.length ([] : Bytes) + 2
        = c7Builder.blockSize
    ∧ claimAdmits c7Builder [] [] = true
    ∧ (c7Builder.add [] []).2 = false := by decide

/-- Claim C7, amended: `BlockBuilder::add` admits an entry iff the builder
is empty or the size after adding it (current size plus `2 + key_len + 2 +
val_len` for the entry plus 2 for its offset slot) is strictly less than
`block_size`; an entry that makes the size exactly `block_size` is
rejected; the first entry of an empty builder is always accepted. -/
theorem block_add_admits_iff_strictly_below (b : BlockBuilder) (key value : Bytes) :
    (b.add key value).2 = true
      ↔ (b.isEmpty = true ∨
          b.currentSize + 2 + key.length + 2 + value.length + 2 < b.blockSize) := by
  cases hE : b.isEmpty with
  | true => simp [BlockBuilder.add, hE]
  | false =>
    by_cases hs : b.currentSize + 2 + key.length + 2 + value.length + 2 ≥ b.blockSize
    · simp [BlockBuilder.add, hE, hs]
      try omega
    · simp [BlockBuilder.add, hE, hs]
      try omega

/-- Claim C5, counterexample: the trailing `build` after the compaction
merge loop does not succeed for every input. When every merged entry is a
tombstone (here the force-full compaction of an SST holding only a
tombstone) nothing was ever added, `meta` is empty, and
`meta.first().unwrap()` panics; the same happens when the size threshold
sealed an SST exactly at the last entry, leaving a freshly reset builder
(last conjunct). -/
theorem trailing_build_panics_on_all_tombstone_input :
    engineCompact [(20, c5Upper)] 1048576 4096 21 (.forceFullCompaction [20] []) = none
    ∧ c5Upper.entries = [([1], [])]
    ∧ compactEntries 1 16 30 [([2], [7]), ([3], [8])] = none := by decide

/-- Claim C10: `force_freeze_memtable` changes only the memtable fields of
the published state: `l0_sstables`, `levels`, and the `sstables` map are
unchanged, the previously active memtable becomes the unmodified head of
`imm_memtables`, and the new active memtable is a freshly allocated empty
memtable carrying the newly drawn id. -/
theorem freeze_frame_effect (st : EngineState) :
    (forceFreezeMemtable st).l0Sstables = st.l0Sstables
    ∧ (forceFreezeMemtable st).levels = st.levels
    ∧ (forceFreezeMemtable st).sstables = st.sstables
    ∧ (forceFreezeMemtable st).immMemtables = st.memtable :: st.immMemtables
    ∧ (forceFreezeMemtable st).memtable
        = { id := st.nextSstId, entries := [], approximateSize := 0 }
    ∧ (forceFreezeMemtable st).nextSstId = st.nextSstId + 1 :=
  ⟨rfl, rfl, rfl, rfl, rfl, rfl⟩

theorem blockAdd_fst_nonempty (b : BlockBuilder) (k v : Bytes)
    (h : (b.add k v).2 = true) : ((b.add k v).1).isEmpty = false := by
  by_cases hc :
      (!b.isEmpty && decide (b.currentSize + 2 + k.length + 2 + v.length + 2 ≥ b.blockSize))
        = true
  · have hfalse : (b.add k v).2 = false := by simp [BlockBuilder.add, hc]
    rw [h] at hfalse
    cases hfalse
  · simp only [BlockBuilder.add, hc, Bool.false_eq_true, if_false]
    simp [BlockBuilder.isEmpty, le16]

theorem sstAdd_builder_nonempty (s : SsTableBuilder) (k v : Bytes) :
    ((s.add k v).builder).isEmpty = false := by
  unfold SsTableBuilder.add
  cases h : s.builder.add k v with
  | mk b2 ok =>
    cases ok with
    | true =>
      have h2 : (s.builder.add k v).2 = true := by rw [h]
      have := blockAdd_fst_nonempty s.builder k v h2
      rw [h] at this
      exact this
    | false =>
      simp only [SsTableBuilder.updateKeys]
      have hnew : s.saveBlock.builder = BlockBuilder.new s.blockSize := rfl
      have h2 : (s.saveBlock.builder.add k v).2 = true := by
        rw [hnew]
        simp [BlockBuilder.add, BlockBuilder.new, BlockBuilder.isEmpty]
      exact blockAdd_fst_nonempty s.saveBlock.builder k v h2

theorem sstBuild_none_iff (s : SsTableBuilder) (id : Nat) :
    s.build id = none ↔ (s.builder.isEmpty = true ∧ s.meta = []) := by
  cases hE : s.builder.isEmpty with
  | false =>
    have hmeta : s.saveBlock.meta = s.meta ++ [⟨s.data.length, s.firstKey, s.lastKey⟩] := rfl
    simp only [SsTableBuilder.build, hE, Bool.not_false, if_pos, hmeta]
    cases hm : s.meta ++ [⟨s.data.length, s.firstKey, s.lastKey⟩] with
    | nil => exact absurd hm (by simp)
    | cons m rest => simp
  | true =>
    simp only [SsTableBuilder.build, hE, Bool.not_true, Bool.false_eq_true, if_false]
    cases hm : s.meta with
    | nil => simp
    | cons m rest => simp

theorem compactFold_none (t bs : Nat) (es : List (Bytes × Bytes)) :
    es.foldl (compactStep t bs) none = none := by
  induction es with
  | nil => rfl
  | cons e rest ih => exact ih

theorem compactFold_inv (t bs : Nat) (es : List (Bytes × Bytes)) :
    ∀ (acc a : CompactAcc), (acc.builder.meta ≠ [] → acc.builder.builder.isEmpty = false) →
      es.foldl (compactStep t bs) (some acc) = some a →
      (a.builder.meta ≠ [] → a.builder.builder.isEmpty = false) := by
  induction es with
  | nil =>
    intro acc a hInv h
    cases h
    exact hInv
  | cons e rest ih =>
    intro acc a hInv h
    rw [List.foldl_cons] at h
    cases hstep : compactStep t bs (some acc) e with
    | none =>
      rw [hstep, compactFold_none] at h
      cases h
    | some acc2 =>
      rw [hstep] at h
      refine ih acc2 a ?_ h
      unfold compactStep at hstep
      by_cases hv : e.2.isEmpty = true
      · simp only [hv, if_pos] at hstep
        cases hstep
        exact hInv
      · simp only [hv] at hstep
        by_cases hsz : (acc.builder.add e.1 e.2).estimatedSize ≥ t
        · simp only [hsz, if_pos] at hstep
          cases hb : (acc.builder.add e.1 e.2).build acc.nextId with
          | none => rw [hb] at hstep; cases hstep
          | some sst =>
            rw [hb] at hstep
            cases hstep
            intro hmeta
            exact absurd rfl hmeta
        · simp only [hsz] at hstep
          cases hstep
          intro _
          exact sstAdd_builder_nonempty acc.builder e.1 e.2

/-- Claim C5, amended: in every compaction merge the trailing SST build
after the loop succeeds if and only if the builder still holds at least one
entry — that is, iff some non-tombstone entry was added after the last
intermediate seal. It panics (on the empty `meta`) both when the merged
input contains only tombstones and when the size threshold sealed an SST
exactly at the last entry, leaving a freshly reset builder. -/
theorem trailing_build_succeeds_iff_builder_nonempty (t bs startId : Nat)
    (entries : List (Bytes × Bytes)) (a : CompactAcc)
    (h : compactMergeLoop t bs startId entries = some a) :
    ((compactEntries t bs startId entries).isSome = true
      ↔ a.builder.builder.isEmpty = false) := by
  have hInv : a.builder.meta ≠ [] → a.builder.builder.isEmpty = false := by
    refine compactFold_inv t bs entries
      { builder := SsTableBuilder.new bs, outputs := [], nextId := startId } a ?_ h
    intro hmeta
    exact absurd rfl hmeta
  unfold compactEntries
  rw [h]
  unfold compactFinish
  cases hb : a.builder.build a.nextId with
  | none =>
    have hEmpty := (sstBuild_none_iff a.builder a.nextId).mp hb
    simp [hb, hEmpty.1]
  | some sst =>
    simp only [hb, Option.isSome_some, true_iff]
    cases hE : a.builder.builder.isEmpty with
    | false => rfl
    | true =>
      have hmeta : a.builder.meta = [] := by
        by_cases hm : a.builder.meta = []
        · exact hm
        · exact absurd hE (by simp [hInv hm])
      rw [(sstBuild_none_iff a.builder a.nextId).mpr ⟨hE, hmeta⟩] at hb
      cases hb

/-- Witness for the amended trailing-build theorem at a one-entry merge
input: the loop leaves the single live entry in the builder and the
trailing build succeeds. -/
theorem trailing_build_witness :
    (compactEntries 1048576 4096 12 [([2], [7])]).isSome = true :=
  (trailing_build_succeeds_iff_builder_nonempty 1048576 4096 12 [([2], [7])]
      { builder := (SsTableBuilder.new 4096).add [2] [7], outputs := [], nextId := 12 }
      rfl).mpr (by decide)

theorem flatMapLe16_length (l : List Nat) : (l.flatMap le16).length = 2 * l.length := by
  induction l with
  | nil => rfl
  | cons o rest ih =>
    show (le16 o ++ rest.flatMap le16).length = 2 * (o :: rest).length
    rw [List.length_append, ih]
    simp [le16]
    try omega

theorem getD_append_right (xs ys : List Nat) (i : Nat) :
    (xs ++ ys).getD (xs.length + i) 0 = ys.getD i 0 := by
  simp [List.getD, List.getElem?_append_right]

theorem getD_append_len (xs ys : List Nat) :
    (xs ++ ys).getD xs.length 0 = ys.getD 0 0 := by
  simpa using getD_append_right xs ys 0

theorem readU16_le16 (c : Nat) : readU16le (c % 256) (c / 256 % 256) = c % 65536 := by
  have h : c % (256 * 256) = c % 256 + 256 * (c / 256 % 256) := Nat.mod_mul
  unfold readU16le
  rw [← h]

theorem decode_encode_offsets_count (b : Block) :
    readU16le ((Block.encode b).getD ((Block.encode b).length - 2) 0)
      ((Block.encode b).getD ((Block.encode b).length - 1) 0)
      = b.offsets.length % 65536 := by
  have h1 : Block.encode b = (b.data ++ b.offsets.flatMap le16) ++ le16 b.offsets.length := by
    simp [Block.encode, List.append_assoc]
  rw [h1]
  have hL : ((b.data ++ b.offsets.flatMap le16) ++ le16 b.offsets.length).length
      = (b.data ++ b.offsets.flatMap le16).length + 2 := by
    rw [List.length_append]
    simp [le16]
  rw [hL]
  have h2 : (b.data ++ b.offsets.flatMap le16).length + 2 - 2
      = (b.data ++ b.offsets.flatMap le16).length := by omega
  have h3 : (b.data ++ b.offsets.flatMap le16).length + 2 - 1
      = (b.data ++ b.offsets.flatMap le16).length + 1 := by omega
  rw [h2, h3, getD_append_len, getD_append_right]
  exact readU16_le16 b.offsets.length

theorem decodeU16s_flatMap (l : List Nat) (h : ∀ o ∈ l, o < 65536) :
    decodeU16s (l.flatMap le16) = l := by
  induction l with
  | nil => rfl
  | cons o rest ih =>
    have ho : o < 65536 := h o (by simp)
    have hrest : ∀ o2 ∈ rest, o2 < 65536 := fun o2 hm => h o2 (by simp [hm])
    show decodeU16s (le16 o ++ rest.flatMap le16) = o :: rest
    have hstep : le16 o ++ rest.flatMap le16
        = o % 256 :: (o / 256 % 256 :: rest.flatMap le16) := rfl
    rw [hstep]
    show readU16le (o % 256) (o / 256 % 256) :: decodeU16s (rest.flatMap le16) = o :: rest
    rw [ih hrest, readU16_le16, Nat.mod_eq_of_lt ho]

theorem block_decode_encode (b : Block) (hlen : b.offsets.length < 65536)
    (hoff : ∀ o ∈ b.offsets, o < 65536) : Block.decode (Block.encode b) = b := by
  obtain ⟨data, offsets⟩ := b
  have hcount := decode_encode_offsets_count ⟨data, offsets⟩
  rw [Nat.mod_eq_of_lt hlen] at hcount
  have h1 : Block.encode ⟨data, offsets⟩
      = data ++ (offsets.flatMap le16 ++ le16 offsets.length) := by
    simp [Block.encode]
  have hL : (Block.encode ⟨data, offsets⟩).length
      = data.length + (2 * offsets.length + 2) := by
    rw [h1, List.length_append, List.length_append, flatMapLe16_length]
    rfl
  have hIdx : (Block.encode ⟨data, offsets⟩).length - 2 - 2 * offsets.length
      = data.length := by omega
  simp only [Block.decode, hcount, hIdx]
  rw [h1, List.take_left, List.drop_left]
  have hflat : (offsets.flatMap le16).length = 2 * offsets.length := flatMapLe16_length _
  rw [show 2 * offsets.length = (offsets.flatMap le16).length from hflat.symm, List.take_left]
  rw [decodeU16s_flatMap offsets hoff]

theorem blockAddAll_offsets_lt (es : List (Bytes × Bytes)) :
    ∀ b : BlockBuilder, (∀ o ∈ b.offsets, o < 65536) →
      ∀ o ∈ (blockAddAll b es).offsets, o < 65536 := by
  induction es with
  | nil => exact fun b hb => hb
  | cons e rest ih =>
    intro b hb
    rw [blockAddAll, List.foldl_cons]
    refine ih (b.add e.1 e.2).1 ?_
    by_cases hc :
        (!b.isEmpty
          && decide (b.currentSize + 2 + e.1.length + 2 + e.2.length + 2 ≥ b.blockSize)) = true
    · simpa [BlockBuilder.add, hc] using hb
    · simp only [BlockBuilder.add, hc, Bool.false_eq_true, if_false]
      intro o hm
      simp only [List.mem_append, List.mem_singleton] at hm
      rcases hm with hm | rfl
      · exact hb o hm
      · exact Nat.mod_lt _ (by norm_num)

/-- Claim C8, amended: decoding the encoding of a builder-produced block
yields an identical block — same data bytes, same offsets — provided the
block holds fewer than 65536 entries (the element count is written as a
`u16` and wraps otherwise). -/
theorem block_roundtrip_below_u16_limit (blockSize : Nat) (entries : List (Bytes × Bytes))
    (h : (blockFromEntries blockSize entries).offsets.length < 65536) :
    Block.decode (Block.encode (blockFromEntries blockSize entries))
      = blockFromEntries blockSize entries :=
  block_decode_encode _ h
    (blockAddAll_offsets_lt entries (BlockBuilder.new blockSize) (by simp [BlockBuilder.new]))

/-- Witness for the block round-trip theorem at a one-entry block. -/
theorem block_roundtrip_witness :
    (blockFromEntries 4096 [([2], [7])]).offsets.length < 65536
    ∧ Block.decode (Block.encode (blockFromEntries 4096 [([2], [7])]))
        = blockFromEntries 4096 [([2], [7])] :=
  ⟨by decide, block_roundtrip_below_u16_limit 4096 [([2], [7])] (by decide)⟩

theorem c8StateJ_add (j : Nat) (hj : j ≤ 65535) :
    (c8StateJ j).add [] [] = (c8StateJ (j + 1), true) := by
  have hcs : (c8StateJ j).currentSize = 4 * j + 2 * j + 2 := by
    simp [c8StateJ, BlockBuilder.currentSize]
  have hR : decide ((c8StateJ j).currentSize + 2 + List.length ([] : Bytes) + 2
      + List.length ([] : Bytes) + 2 ≥ (c8StateJ j).blockSize) = false := by
    apply decide_eq_false
    intro hge
    rw [hcs] at hge
    have hbs : (c8StateJ j).blockSize = 1000000 := rfl
    rw [hbs] at hge
    simp at hge
    omega
  have hcond : (!(c8StateJ j).isEmpty
      && decide ((c8StateJ j).currentSize + 2 + List.length ([] : Bytes) + 2
        + List.length ([] : Bytes) + 2 ≥ (c8StateJ j).blockSize)) = false := by
    rw [hR, Bool.and_false]
  simp only [BlockBuilder.add, hcond, Bool.false_eq_true, if_false]
  have hdata : (c8StateJ j).data ++ (le16 (List.length ([] : Bytes)) ++ []
      ++ le16 (List.length ([] : Bytes)) ++ []) = (c8StateJ (j + 1)).data := by
    show List.replicate (4 * j) 0 ++ ([0, 0] ++ [] ++ [0, 0] ++ []) = List.replicate (4 * (j + 1)) 0
    have h4 : 4 * (j + 1) = 4 * j + 4 := by omega
    rw [h4, List.replicate_add]
    rfl
  have hoffs : (c8StateJ j).offsets ++ [(c8StateJ j).data.length % 65536]
      = (c8StateJ (j + 1)).offsets := by
    show ((List.range j).map fun i => 4 * i % 65536) ++ [(List.replicate (4 * j) 0).length % 65536]
      = (List.range (j + 1)).map fun i => 4 * i % 65536
    rw [List.range_succ, List.map_append]
    simp
  have hfk : (if (c8StateJ j).firstKey.isEmpty then (c8StateJ j).firstKey ++ ([] : Bytes)
      else (c8StateJ j).firstKey) = (c8StateJ (j + 1)).firstKey := by
    simp [c8StateJ]
  rw [Prod.mk.injEq]
  refine ⟨?_, rfl⟩
  rw [BlockBuilder.mk.injEq]
  exact ⟨hoffs, hdata, rfl, hfk⟩

theorem c8StateJ_fold (k : Nat) : ∀ j, j + k ≤ 65536 →
    blockAddAll (c8StateJ j) (List.replicate k ([], [])) = c8StateJ (j + k) := by
  induction k with
  | zero => intro j _; rfl
  | succ k ih =>
    intro j hj
    have hadd := c8StateJ_add j (by omega)
    have h1 : blockAddAll (c8StateJ j) (List.replicate (k + 1) ([], []))
        = blockAddAll (c8StateJ (j + 1)) (List.replicate k ([], [])) := by
      rw [List.replicate_succ]
      show List.foldl (fun acc e => (acc.add e.1 e.2).1)
        (((c8StateJ j).add [] []).1) (List.replicate k ([], [])) = _
      rw [hadd]
      rfl
    rw [h1, ih (j + 1) (by omega)]
    congr 1
    omega

theorem c8Block_eq :
    c8Block = { data := List.replicate 262144 0,
                offsets := (List.range 65536).map (fun i => 4 * i % 65536) } := by
  have h0 : BlockBuilder.new 1000000 = c8StateJ 0 := by
    simp [BlockBuilder.new, c8StateJ]
  show (blockAddAll (BlockBuilder.new 1000000) (List.replicate 65536 ([], []))).build = _
  rw [h0, c8StateJ_fold 65536 0 (by omega)]
  show (c8StateJ (0 + 65536)).build = _
  norm_num [c8StateJ, BlockBuilder.build]

/-- Claim C8, counterexample: `c8Block` is produced by a `BlockBuilder` from
a sequence of 65536 entries, yet decoding its encoding does not yield an
identical block: `Block::encode` writes the element count as a `u16`, which
wraps to zero, so the decoder reads back zero offsets. -/
theorem block_roundtrip_fails_at_65536_entries :
    Block.decode (Block.encode c8Block) ≠ c8Block := by
  intro hEq
  have hlen : c8Block.offsets.length = 65536 := by
    rw [c8Block_eq]
    simp
  have hdec : (Block.decode (Block.encode c8Block)).offsets = [] := by
    have hcount := decode_encode_offsets_count c8Block
    rw [hlen] at hcount
    have hz : (65536 : Nat) % 65536 = 0 := by norm_num
    rw [hz] at hcount
    simp only [Block.decode, hcount, Nat.mul_zero, List.take_zero]
    rfl
  rw [hEq] at hdec
  rw [hdec] at hlen
  simp at hlen

theorem bytesLe_eq_false_of_lt {a b : Bytes} (h : bytesLt b a = true) :
    bytesLe a b = false := by
  cases hq : bytesLe a b with
  | false => rfl
  | true => exact absurd (bytesLe_iff.mp hq) (by simp [h])

theorem bytesCmp_lt_iff {a b : Bytes} : bytesCmp a b = .lt ↔ bytesLt a b = true := by
  unfold bytesCmp
  cases h1 : bytesLt a b <;> cases h2 : bytesLt b a <;> simp

theorem bytesCmp_gt_iff {a b : Bytes} :
    bytesCmp a b = .gt ↔ (bytesLt a b = false ∧ bytesLt b a = true) := by
  unfold bytesCmp
  cases h1 : bytesLt a b <;> cases h2 : bytesLt b a <;> simp

theorem bytesCmp_eq_iff {a b : Bytes} : bytesCmp a b = .eq ↔ a = b := by
  unfold bytesCmp
  cases h1 : bytesLt a b with
  | true =>
    simp [h1]
    intro h
    subst h
    simp [bytesLt_irrefl] at h1
  | false =>
    cases h2 : bytesLt b a with
    | true =>
      simp [h1, h2]
      intro h
      subst h
      simp [bytesLt_irrefl] at h2
    | false => simp [h1, h2, bytesLt_conn h1 h2]

theorem firstGE_none (key : Bytes) : ∀ (metas : List BlockMeta),
    firstIdxWithLastKeyGE key metas = none →
    ∀ i, i < metas.length → bytesLe key (metaLK metas i) = false := by
  intro metas
  induction metas with
  | nil => intro _ i hi; simp at hi
  | cons m rest ih =>
    intro h i hi
    cases hb : bytesLe key m.lastKey with
    | true => simp [firstIdxWithLastKeyGE, hb] at h
    | false =>
      simp only [firstIdxWithLastKeyGE, hb, Bool.false_eq_true, if_false,
        Option.map_eq_none'] at h
      cases i with
      | zero => exact hb
      | succ i =>
        have := ih h i (by simpa using hi)
        simpa [metaLK] using this

theorem firstGE_some (key : Bytes) : ∀ (metas : List BlockMeta) (j : Nat),
    firstIdxWithLastKeyGE key metas = some j →
    j < metas.length ∧ bytesLe key (metaLK metas j) = true
      ∧ ∀ i, i < j → bytesLe key (metaLK metas i) = false := by
  intro metas
  induction metas with
  | nil => intro j h; simp [firstIdxWithLastKeyGE] at h
  | cons m rest ih =>
    intro j h
    cases hb : bytesLe key m.lastKey with
    | true =>
      simp only [firstIdxWithLastKeyGE, hb, if_pos, Option.some.injEq] at h
      subst h
      exact ⟨by simp, by simpa [metaLK] using hb, by omega⟩
    | false =>
      simp only [firstIdxWithLastKeyGE, hb, Bool.false_eq_true, if_false,
        Option.map_eq_some'] at h
      obtain ⟨j2, hj2, rfl⟩ := h
      obtain ⟨h1, h2, h3⟩ := ih j2 hj2
      refine ⟨by simpa using h1, by simpa [metaLK] using h2, ?_⟩
      intro i hi
      cases i with
      | zero => exact hb
      | succ i => simpa [metaLK] using h3 i (by omega)

theorem claim_eq_of_first (metas : List BlockMeta) (key : Bytes) (j : Nat)
    (hj : j < metas.length) (h1 : bytesLe key (metaLK metas j) = true)
    (h2 : ∀ i, i < j → bytesLe key (metaLK metas i) = false) :
    claimBlockIdx metas key = j := by
  cases hfi : firstIdxWithLastKeyGE key metas with
  | none => exact absurd h1 (by simp [firstGE_none key metas hfi j hj])
  | some j2 =>
    obtain ⟨hjlen, hja, hjb⟩ := firstGE_some key metas j2 hfi
    have hEq : j2 = j := by
      rcases Nat.lt_trichotomy j2 j with h | h | h
      · exact absurd hja (by simp [h2 j2 h])
      · exact h
      · exact absurd h1 (by simp [hjb j h])
    subst hEq
    simp [claimBlockIdx, hfi]

theorem claim_eq_of_none (metas : List BlockMeta) (key : Bytes)
    (h : ∀ i, i < metas.length → bytesLe key (metaLK metas i) = false) :
    claimBlockIdx metas key = metas.length - 1 := by
  cases hfi : firstIdxWithLastKeyGE key metas with
  | none => simp [claimBlockIdx, hfi]
  | some j =>
    obtain ⟨hjlen, hja, _⟩ := firstGE_some key metas j hfi
    exact absurd hja (by simp [h j hjlen])

theorem metaFK_mono (metas : List BlockMeta)
    (hfl : ∀ i, i < metas.length → bytesLe (metaFK metas i) (metaLK metas i) = true)
    (hadj : ∀ i, i + 1 < metas.length →
      bytesLt (metaLK metas i) (metaFK metas (i + 1)) = true) :
    ∀ i j, i < j → j < metas.length → bytesLt (metaFK metas i) (metaFK metas j) = true := by
  intro i j
  induction j with
  | zero => omega
  | succ j ih =>
    intro hij hj
    have hstep : bytesLt (metaFK metas j) (metaFK metas (j + 1)) = true :=
      bytesLe_lt_trans (hfl j (by omega)) (hadj j hj)
    by_cases hij2 : i = j
    · subst hij2; exact hstep
    · exact bytesLt_trans (ih (by omega) (by omega)) hstep

theorem metaLK_lt_FK (metas : List BlockMeta)
    (hfl : ∀ i, i < metas.length → bytesLe (metaFK metas i) (metaLK metas i) = true)
    (hadj : ∀ i, i + 1 < metas.length →
      bytesLt (metaLK metas i) (metaFK metas (i + 1)) = true) :
    ∀ i j, i < j → j < metas.length → bytesLt (metaLK metas i) (metaFK metas j) = true := by
  intro i j
  induction j with
  | zero => omega
  | succ j ih =>
    intro hij hj
    by_cases hij2 : i = j
    · subst hij2; exact hadj i hj
    · exact bytesLt_trans (ih (by omega) (by omega))
        (bytesLe_lt_trans (hfl j (by omega)) (hadj j hj))

theorem binarySearchGo_spec (metas : List BlockMeta) (key : Bytes)
    (hmono : ∀ i j, i < j → j < metas.length →
      bytesLt (metaFK metas i) (metaFK metas j) = true) :
    ∀ fuel left right, left ≤ right → right ≤ metas.length → right - left ≤ fuel →
      (∀ idx, binarySearchGo metas key fuel left right = .ok idx →
          left ≤ idx ∧ idx < right ∧ metaFK metas idx = key)
      ∧ (∀ idx, binarySearchGo metas key fuel left right = .error idx →
          left ≤ idx ∧ idx ≤ right
          ∧ (∀ i, left ≤ i → i < idx → bytesLt (metaFK metas i) key = true)
          ∧ (∀ i, idx ≤ i → i < right → bytesLt key (metaFK metas i) = true)) := by
  intro fuel
  induction fuel with
  | zero =>
    intro left right hlr hrlen hgap
    constructor
    · intro idx h
      simp [binarySearchGo] at h
    · intro idx h
      have hidx : left = idx := by simpa [binarySearchGo] using h
      subst hidx
      refine ⟨by omega, by omega, ?_, ?_⟩
      · intro i h1 h2; omega
      · intro i h1 h2; omega
  | succ fuel ih =>
    intro left right hlr hrlen hgap
    by_cases hc : left < right
    · cases hcmp : bytesCmp (metas.getD (left + (right - left) / 2) ⟨0, [], []⟩).firstKey key with
      | lt =>
        have heq : binarySearchGo metas key (fuel + 1) left right
            = binarySearchGo metas key fuel (left + (right - left) / 2 + 1) right := by
          simp only [binarySearchGo]
          rw [if_pos hc, hcmp]
        have hspec := ih (left + (right - left) / 2 + 1) right (by omega) hrlen (by omega)
        rw [heq]
        constructor
        · intro idx h
          obtain ⟨h1, h2, h3⟩ := hspec.1 idx h
          exact ⟨by omega, h2, h3⟩
        · intro idx h
          obtain ⟨h1, h2, h3, h4⟩ := hspec.2 idx h
          refine ⟨by omega, h2, ?_, h4⟩
          intro i hi1 hi2
          by_cases him : i < left + (right - left) / 2
          · have hm : bytesLt (metaFK metas i) (metaFK metas (left + (right - left) / 2)) = true :=
              hmono i _ him (by omega)
            exact bytesLt_trans hm (bytesCmp_lt_iff.mp hcmp)
          · by_cases him2 : i = left + (right - left) / 2
            · subst him2
              exact bytesCmp_lt_iff.mp hcmp
            · exact h3 i (by omega) hi2
      | gt =>
        have heq : binarySearchGo metas key (fuel + 1) left right
            = binarySearchGo metas key fuel left (left + (right - left) / 2) := by
          simp only [binarySearchGo]
          rw [if_pos hc, hcmp]
        have hspec := ih left (left + (right - left) / 2) (by omega) (by omega) (by omega)
        rw [heq]
        constructor
        · intro idx h
          obtain ⟨h1, h2, h3⟩ := hspec.1 idx h
          exact ⟨h1, by omega, h3⟩
        · intro idx h
          obtain ⟨h1, h2, h3, h4⟩ := hspec.2 idx h
          refine ⟨h1, by omega, h3, ?_⟩
          intro i hi1 hi2
          by_cases him : i < left + (right - left) / 2
          · exact h4 i hi1 him
          · have hkm : bytesLt key (metaFK metas (left + (right - left) / 2)) = true :=
              (bytesCmp_gt_iff.mp hcmp).2
            by_cases him2 : i = left + (right - left) / 2
            · subst him2
              exact hkm
            · exact bytesLt_trans hkm (hmono _ i (by omega) (by omega))
      | eq =>
        have heq : binarySearchGo metas key (fuel + 1) left right
            = .ok (left + (right - left) / 2) := by
          simp only [binarySearchGo]
          rw [if_pos hc, hcmp]
        rw [heq]
        constructor
        · intro idx h
          have hidx : left + (right - left) / 2 = idx := by simpa using h
          subst hidx
          exact ⟨by omega, by omega, bytesCmp_eq_iff.mp hcmp⟩
        · intro idx h
          simp at h
    · have heq : binarySearchGo metas key (fuel + 1) left right = .error left := by
        simp [binarySearchGo, hc]
      rw [heq]
      constructor
      · intro idx h
        simp at h
      · intro idx h
        have hidx : left = idx := by simpa using h
        subst hidx
        refine ⟨by omega, by omega, ?_, ?_⟩
        · intro i h1 h2; omega
        · intro i h1 h2; omega

/-- Claim C9, amended: for every meta array satisfying the strict ordering
invariants — `first_key ≤ last_key` within each meta and
`meta[i].last_key < meta[i+1].first_key` between consecutive metas —
`find_block_idx(key)` returns the index of the unique block that may
contain the probe: the first block whose `last_key` is at least the key,
clamped to the final block when the key is greater than every `last_key`
(and 0 when the key is at or below the first block). Under the claim's
non-strict boundary invariant the statement fails (see the
counterexample). -/
theorem find_block_idx_first_block_containing (metas : List BlockMeta) (key : Bytes)
    (hne : metas ≠ [])
    (hfl : ∀ i, i < metas.length → bytesLe (metaFK metas i) (metaLK metas i) = true)
    (hadj : ∀ i, i + 1 < metas.length →
      bytesLt (metaLK metas i) (metaFK metas (i + 1)) = true) :
    findBlockIdx metas key = claimBlockIdx metas key := by
  have hmono := metaFK_mono metas hfl hadj
  have hlkfk := metaLK_lt_FK metas hfl hadj
  have hlen0 : 0 < metas.length := by
    cases metas with
    | nil => exact absurd rfl hne
    | cons m rest => simp
  have hspec := binarySearchGo_spec metas key hmono (metas.length + 1) 0 metas.length
    (by omega) (le_refl _) (by omega)
  unfold findBlockIdx binarySearchByFirstKey
  cases hbs : binarySearchGo metas key (metas.length + 1) 0 metas.length with
  | ok idx =>
    obtain ⟨-, hidxlt, hfkeq⟩ := hspec.1 idx hbs
    have hle1 : bytesLe key (metaLK metas idx) = true := by
      have h := hfl idx hidxlt
      rw [hfkeq] at h
      exact h
    have hlt2 : ∀ i, i < idx → bytesLe key (metaLK metas i) = false := by
      intro i hi
      apply bytesLe_eq_false_of_lt
      have h := hlkfk i idx hi hidxlt
      rw [hfkeq] at h
      exact h
    exact (claim_eq_of_first metas key idx hidxlt hle1 hlt2).symm
  | error idx =>
    obtain ⟨hidx0, hidxle, hlow, hhigh⟩ := hspec.2 idx hbs
    show (if idx == 0 then idx
      else if bytesLt (metas.getD (idx - 1) ⟨0, [], []⟩).lastKey key then
        (if idx == metas.length then idx - 1 else idx)
      else idx - 1) = claimBlockIdx metas key
    by_cases hz : idx = 0
    · subst hz
      simp only [beq_self_eq_true, if_true]
      have hk0 : bytesLt key (metaFK metas 0) = true := hhigh 0 (by omega) hlen0
      have h0 : bytesLe key (metaLK metas 0) = true :=
        bytesLt_to_le (bytesLt_le_trans hk0 (hfl 0 hlen0))
      exact (claim_eq_of_first metas key 0 hlen0 h0 (by omega)).symm
    · have hz2 : (idx == 0) = false := by simpa using hz
      simp only [hz2, Bool.false_eq_true, if_false]
      have hprev : idx - 1 < metas.length := by omega
      have hfkprev : bytesLt (metaFK metas (idx - 1)) key = true :=
        hlow (idx - 1) (by omega) (by omega)
      have hlowlk : ∀ i, i < idx - 1 → bytesLe key (metaLK metas i) = false := by
        intro i hi
        apply bytesLe_eq_false_of_lt
        exact bytesLt_trans (hlkfk i (idx - 1) hi hprev) hfkprev
      cases hlk : bytesLt (metas.getD (idx - 1) ⟨0, [], []⟩).lastKey key with
      | true =>
        have hlk2 : bytesLe key (metaLK metas (idx - 1)) = false := bytesLe_eq_false_of_lt hlk
        simp only [hlk, if_true]
        by_cases hil : idx = metas.length
        · have hileq : (idx == metas.length) = true := by simpa using hil
          simp only [hileq, if_true]
          have hall : ∀ i, i < metas.length → bytesLe key (metaLK metas i) = false := by
            intro i hi
            by_cases hi2 : i = idx - 1
            · subst hi2; exact hlk2
            · exact hlowlk i (by omega)
          rw [claim_eq_of_none metas key hall]
          omega
        · have hileq : (idx == metas.length) = false := by simpa using hil
          simp only [hileq, Bool.false_eq_true, if_false]
          have hidxlen : idx < metas.length := by omega
          have hkfi : bytesLt key (metaFK metas idx) = true := hhigh idx (by omega) hidxlen
          have hki : bytesLe key (metaLK metas idx) = true :=
            bytesLt_to_le (bytesLt_le_trans hkfi (hfl idx hidxlen))
          have hbelow : ∀ i, i < idx → bytesLe key (metaLK metas i) = false := by
            intro i hi
            by_cases hi2 : i = idx - 1
            · subst hi2; exact hlk2
            · exact hlowlk i (by omega)
          exact (claim_eq_of_first metas key idx hidxlen hki hbelow).symm
      | false =>
        simp only [hlk, Bool.false_eq_true, if_false]
        have hprevle : bytesLe key (metaLK metas (idx - 1)) = true := bytesLe_iff.mpr hlk
        exact (claim_eq_of_first metas key (idx - 1) hprev hprevle hlowlk).symm

/-- Claim C9, counterexample: the metas `c9Metas` satisfy the claim's
ordering invariants as stated (`first_key ≤ last_key` in each meta and
`meta[0].last_key ≤ meta[1].first_key`, here with equality), the first
block whose `last_key` is at least the probe `[0]` is block 0, yet
`find_block_idx` returns 1: the binary search finds the exact `first_key`
match at index 1. -/
theorem find_block_idx_breaks_claim_at_equal_boundary :
    bytesLe (metaFK c9Metas 0) (metaLK c9Metas 0) = true
    ∧ bytesLe (metaFK c9Metas 1) (metaLK c9Metas 1) = true
    ∧ bytesLe (metaLK c9Metas 0) (metaFK c9Metas 1) = true
    ∧ claimBlockIdx c9Metas [0] = 0
    ∧ findBlockIdx c9Metas [0] = 1 := by decide

/-- Witness for the amended `find_block_idx` theorem at a strictly ordered
two-block meta array with the probe between the blocks. -/
theorem find_block_idx_witness :
    findBlockIdx c9StrictMetas [1] = claimBlockIdx c9StrictMetas [1]
    ∧ claimBlockIdx c9StrictMetas [1] = 1 :=
  ⟨find_block_idx_first_block_containing c9StrictMetas [1] (by decide)
      (by
        intro i hi
        have h2 : i < 2 := by simpa [c9StrictMetas] using hi
        interval_cases i <;> decide)
      (by
        intro i hi
        have h2 : i + 1 < 2 := by simpa [c9StrictMetas] using hi
        have h0 : i = 0 := by omega
        subst h0
        decide),
    by decide⟩
